import Mathlib

/-!
Verification of the transcript-reconstruction engine of `make_transcripts.py`.

The Python module parses WebVTT caption segment files, aggregates the cues of
all segment files of one video, sorts them by start time (Python's `list.sort`
is stable), deduplicates identical cue text, merges cue fragments into
sentence-level paragraphs, and writes one artifact per video.

The embedding below is a line-by-line translation.  Python strings are Lean
`String`s; every string primitive the module uses (`strip`, `rstrip`,
`splitlines`, `split`, `join`, `startswith`, `in`, `isdigit`, `isupper`) is
re-implemented structurally over `String.data : List Char` so that every
definition is kernel-computable on concrete inputs.  Whitespace is the ASCII
whitespace of `Char.isWhitespace`; the upper-case test is the ASCII one of
`Char.isUpper` (Python's versions are Unicode-aware, the repository's data is
ASCII).  `i % w` overflow never arises: all arithmetic is on `Nat`
millisecond counts far below any machine bound.  Python file I/O and logging
are effect-free for the values computed here and are dropped; the presence of
a video's directory and the list of its files' texts are explicit arguments.
-/

/-! ## Python string primitives, structurally over `List Char` -/

/-- `str.strip()` on the character list: drop leading and trailing whitespace. -/
def pyStripList (l : List Char) : List Char :=
  ((l.dropWhile Char.isWhitespace).reverse.dropWhile Char.isWhitespace).reverse

/-- `s.strip()`. -/
def pyStrip (s : String) : String := ⟨pyStripList s.data⟩

/-- `s.rstrip()`: drop trailing whitespace. -/
def pyRstrip (s : String) : String := ⟨(s.data.reverse.dropWhile Char.isWhitespace).reverse⟩

/-- The last character of `s.rstrip()` — the last non-whitespace character of
`s` — or `none` when there is none (Python `s.rstrip()[-1]` would raise there;
the call sites below only reach it with a non-empty accumulator). -/
def last_non_ws (s : String) : Option Char := (pyRstrip s).data.getLast?

/-- `s.rstrip()[-1] in cs` for a list of single-character alternatives. -/
def pyLastIn (s : String) (cs : List Char) : Bool :=
  match last_non_ws s with
  | some c => cs.contains c
  | none => false

/-- `s[0].isupper()`; `false` on the empty string (Python would raise, the one
call site guards the content to be non-empty). -/
def pyFirstIsUpper (s : String) : Bool :=
  match s.data with
  | [] => false
  | c :: _ => c.isUpper

/-- `s.startswith(pre)`. -/
def pyStartsWith (s pre : String) : Bool := pre.data.isPrefixOf s.data

/-- `sub in s` on character lists: some suffix of `l` starts with `sub`. -/
def containsSub (sub : List Char) : List Char → Bool
  | [] => sub.isEmpty
  | c :: cs => sub.isPrefixOf (c :: cs) || containsSub sub cs

/-- `sub in s` (substring test). -/
def pyContains (s sub : String) : Bool := containsSub sub.data s.data

/-- `s.isdigit()`: non-empty and all characters decimal digits (ASCII model). -/
def pyIsDigitStr (s : String) : Bool := !s.data.isEmpty && s.data.all Char.isDigit

/-- Split a character list at every occurrence of `c` (keeping empty pieces). -/
def splitOnChar (c : Char) : List Char → List (List Char)
  | [] => [[]]
  | x :: xs =>
    match splitOnChar c xs with
    | [] => [[x]]
    | l :: ls => if x == c then [] :: l :: ls else (x :: l) :: ls

/-- `s.splitlines()` for newline-separated text: split at `'\n'` and, as
Python does, drop the piece after a final newline (`"".splitlines() = []`,
`"a\n".splitlines() = ["a"]`).  The module splits `content.strip()`, and every
produced line is `strip`ped again before use, so the `'\r'` variants of
Python's line endings are immaterial here. -/
def pySplitLines (s : String) : List String :=
  let parts := splitOnChar '\n' s.data
  (if parts.getLast? = some [] then parts.dropLast else parts).map fun l => ⟨l⟩

/-- `sep.join(xs)`. -/
def pyJoin (sep : String) : List String → String
  | [] => ""
  | [x] => x
  | x :: y :: xs => x ++ sep ++ pyJoin sep (y :: xs)

/-! ## The data model: `VTTSegment` (lines 20-40) -/

/-- `VTTSegment`: one cue.  `content_id` is the optional numeric label. -/
structure VTTSegment where
  time_range : String
  content : String
  content_id : Option String
deriving DecidableEq

/-- The dataclass constructor: `__post_init__` strips `content` (line 30). -/
def mkVTTSegment (time_range content : String) (content_id : Option String) : VTTSegment :=
  ⟨time_range, pyStrip content, content_id⟩

/-- The separator of `time_range.split(" --> ")` (line 35). -/
def sepToken : List Char := " --> ".data

/-- `time_range.split(" --> ")[0]`: the prefix before the first occurrence of
the separator (the whole list when the separator does not occur). -/
def takeBeforeSep : List Char → List Char
  | [] => []
  | c :: cs => if sepToken.isPrefixOf (c :: cs) then [] else c :: takeBeforeSep cs

/-- The numeric value of a decimal digit character. -/
def digitVal (c : Char) : Nat := c.toNat - '0'.toNat

/-- `re.match(r"(\d{2}):(\d{2}):(\d{2})\.(\d{3})", s)` (line 35): anchored at
the start, trailing characters allowed; on success the four captured numbers. -/
def matchTimestamp : List Char → Option (Nat × Nat × Nat × Nat)
  | h1 :: h2 :: c1 :: m1 :: m2 :: c2 :: s1 :: s2 :: d1 :: x1 :: x2 :: x3 :: _ =>
    if h1.isDigit && h2.isDigit && c1 == ':' && m1.isDigit && m2.isDigit && c2 == ':' &&
        s1.isDigit && s2.isDigit && d1 == '.' && x1.isDigit && x2.isDigit && x3.isDigit then
      some (10 * digitVal h1 + digitVal h2, 10 * digitVal m1 + digitVal m2,
            10 * digitVal s1 + digitVal s2, 100 * digitVal x1 + 10 * digitVal x2 + digitVal x3)
    else none
  | _ => none

/-- `VTTSegment.start_time_ms` (lines 32-40): parse the start of the range to
milliseconds; `0` when the fixed-width pattern does not match (a warning is
logged and the caller never fails — the function is pure and total). -/
def VTTSegment.start_time_ms (seg : VTTSegment) : Nat :=
  match matchTimestamp (takeBeforeSep seg.time_range.data) with
  | some (h, m, s, ms) => (h * 3600 + m * 60 + s) * 1000 + ms
  | none => 0

/-! ## The cue parser (lines 69-151) -/

/-- The metadata-line test of lines 92-98. -/
def is_metadata (line : String) : Bool :=
  pyStartsWith line "WEBVTT" || pyStartsWith line "X-TIMESTAMP-MAP" ||
    pyStartsWith line "NOTE" || pyStartsWith line "Kind:" || pyStartsWith line "Language:"

/-- The search of lines 130-135: split a block at its first line containing
`"-->"` into (lines before, the time-range line, lines after); `none` when no
line contains the arrow. -/
def findArrowSplit : List String → Option (List String × String × List String)
  | [] => none
  | l :: ls =>
    if pyContains l "-->" then some ([], l, ls)
    else
      match findArrowSplit ls with
      | none => none
      | some (before, t, after) => some (l :: before, t, after)

/-- `TranscriptMaker.parse_vtt_block` (lines 120-151).  The first line
containing `"-->"` is the time range (no such line: no cue, `None`); a line
before it at index 0 that is all digits is the `content_id`; the lines after
it joined by single spaces and stripped are the content — constructed even
when empty. -/
def parse_vtt_block (lines : List String) : Option VTTSegment :=
  match findArrowSplit lines with
  | none => none
  | some (before, time_range, after) =>
    let content_id :=
      match before with
      | [] => none
      | first :: _ => if pyIsDigitStr first then some first else none
    some (mkVTTSegment time_range (pyStrip (pyJoin " " after)) content_id)

/-- The line scan of `parse_vtt_file` (lines 87-117): strip each line, skip
metadata lines, flush the current block at a blank line, and parse a non-empty
trailing block at end of input. -/
def scan_lines : List String → List String → List VTTSegment
  | [], block => if block.isEmpty then [] else (parse_vtt_block block).toList
  | l :: ls, block =>
    let line := pyStrip l
    if is_metadata line then scan_lines ls block
    else if line = "" then
      (if block.isEmpty then [] else (parse_vtt_block block).toList) ++ scan_lines ls []
    else scan_lines ls (block ++ [line])

/-- `TranscriptMaker.parse_vtt_file` (lines 69-118) on the file's text (the
missing-header case only logs a warning and continues). -/
def parse_vtt_file (content : String) : List VTTSegment :=
  scan_lines (pySplitLines (pyStrip content)) []

/-! ## The transcript reconstructor (lines 192-254) -/

/-- The continuation words of line 227. -/
def continuation_words : List String := ["And", "But", "Or", "So", "Then", "However", "Therefore"]

/-- Lines 228-230: the content begins with a continuation word and a space. -/
def is_continuation (content : String) : Bool :=
  continuation_words.any fun w => pyStartsWith content (w ++ " ")

/-- Lines 216-243: fold one cue's content into the accumulator
`current_sentence`.  Yields the updated accumulator and the paragraph the
new-sentence rule pushed, if any. -/
def merge_content (current_sentence content : String) : String × Option String :=
  if current_sentence = "" then (content, none)
  else if pyFirstIsUpper content && !pyLastIn current_sentence ['.', '!', '?', ':', ';'] then
    if is_continuation content then (current_sentence ++ " " ++ content, none)
    else (content, some current_sentence)
  else (current_sentence ++ " " ++ content, none)

/-- Lines 245-248: a sentence whose last non-whitespace character is `.`, `!`
or `?` is complete — push it and reset the accumulator. -/
def close_sentence (current_sentence : String) : String × Option String :=
  if pyLastIn current_sentence ['.', '!', '?'] then ("", some current_sentence)
  else (current_sentence, none)

/-- The loop state of `process_segments`: the job's dedup set
`processed_content` (modelled as the list of its members), the accumulator and
the result list. -/
structure MergeState where
  processed_content : List String
  current_sentence : String
  result : List String
deriving DecidableEq

/-- One iteration of the loop of lines 200-248: skip a cue whose stripped
content is empty, skip one already in the dedup set, otherwise record it,
fold it into the accumulator and close the sentence when terminated. -/
def process_step (st : MergeState) (seg : VTTSegment) : MergeState :=
  if pyStrip seg.content = "" then st
  else if st.processed_content.contains seg.content then st
  else
    let mc := merge_content st.current_sentence seg.content
    let cs := close_sentence mc.1
    { processed_content := seg.content :: st.processed_content
    , current_sentence := cs.1
    , result := (st.result ++ mc.2.toList) ++ cs.2.toList }

/-- The loop of lines 197-248 from the fresh state of lines 194-198. -/
def process_segments_state (segs : List VTTSegment) : MergeState :=
  segs.foldl process_step { processed_content := [], current_sentence := "", result := [] }

/-- Lines 197-252: the final paragraph list, a trailing non-empty accumulator
appended as a last (possibly unterminated) paragraph. -/
def process_segments_list (segs : List VTTSegment) : List String :=
  let st := process_segments_state segs
  if st.current_sentence = "" then st.result else st.result ++ [st.current_sentence]

/-- `TranscriptMaker.process_segments` (lines 192-254), called on a maker whose
`processed_content` field holds `_prior`: line 195 replaces that set with a
fresh empty one before the loop, so the result never depends on `_prior`. -/
def process_segments (_prior : List String) (segs : List VTTSegment) : String :=
  pyJoin "\n\n" (process_segments_list segs)

/-! ## Per-video pipeline and batch driver (lines 153-269) -/

/-- Line 179: `all_segments.sort(key=lambda s: s.start_time_ms)` — Python's
stable sort, modelled by the (stable) `List.mergeSort` on the same key. -/
def sort_segments (segs : List VTTSegment) : List VTTSegment :=
  segs.mergeSort fun a b => decide (a.start_time_ms ≤ b.start_time_ms)

/-- Lines 168-172: parse every segment file and concatenate the cues. -/
def aggregate_segments (files : List String) : List VTTSegment :=
  files.foldl (fun acc f => acc ++ parse_vtt_file f) []

/-- `TranscriptMaker.process_video` (lines 153-190) on the video's inputs: the
presence of its directory and the texts of its `*.txt` segment files.  `none`
models the `False` return (no artifact written); `some t` models a successful
run that writes the artifact text `t`. -/
def process_video (dirExists : Bool) (files : List String) : Option String :=
  if !dirExists then none
  else if files.isEmpty then none
  else
    let all_segments := aggregate_segments files
    if all_segments.isEmpty then none
    else some (process_segments [] (sort_segments all_segments))

/-- `TranscriptMaker.process_all_videos` (lines 256-269): each video is its
directory-presence flag and its file texts; no identifiers found returns exit
code 1, otherwise 0 exactly when every video's job succeeded. -/
def process_all_videos (videos : List (Bool × List String)) : Nat :=
  if videos.isEmpty then 1
  else if videos.countP (fun v => (process_video v.1 v.2).isSome) = videos.length then 0 else 1

/-! ## Concrete inputs used by witnesses and counterexamples -/

/-- File A of the §8 end-to-end scenario. -/
def fileA : String := "00:00:00.000 --> 00:00:01.000\nHello world."

/-- File B of the §8 end-to-end scenario: a duplicate cue and a second cue. -/
def fileB : String :=
  "00:00:01.500 --> 00:00:02.000\nHello world.\n\n00:00:02.500 --> 00:00:03.000\nAnd goodbye."

/-- A segment file whose single block has a time range but no content line. -/
def emptyContentFile : String := "00:00:00.000 --> 00:00:01.000"

/-- A segment file with no `-->` line at all: zero parseable cues. -/
def noCueFile : String := "WEBVTT\njust stray text"

/-- The sequence of cue contents the merge loop actually consumes (neither
empty after stripping nor already in the dedup set), in order, starting from
dedup set `seen` — the specification of how `process_step` grows
`processed_content`. -/
def consumed_contents : List String → List VTTSegment → List String
  | _, [] => []
  | seen, seg :: rest =>
    if pyStrip seg.content = "" then consumed_contents seen rest
    else if seen.contains seg.content then consumed_contents seen rest
    else seg.content :: consumed_contents (seg.content :: seen) rest

/-! ## Facts about the anchored timestamp match -/

theorem matchTimestamp_append (l z : List Char) (h : 12 ≤ l.length) :
    matchTimestamp (l ++ z) = matchTimestamp l := by
  rcases l with _ | ⟨a, _ | ⟨b, _ | ⟨c, _ | ⟨d, _ | ⟨e, _ | ⟨f, _ | ⟨g, _ | ⟨h1, _ | ⟨i, _ | ⟨j, _ | ⟨k, _ | ⟨m, rest⟩⟩⟩⟩⟩⟩⟩⟩⟩⟩⟩⟩ <;>
    first
      | rfl
      | (simp only [List.length] at h; omega)

theorem matchTimestamp_none_of_short (l : List Char) (h : l.length < 12) :
    matchTimestamp l = none := by
  rcases l with _ | ⟨a, _ | ⟨b, _ | ⟨c, _ | ⟨d, _ | ⟨e, _ | ⟨f, _ | ⟨g, _ | ⟨h1, _ | ⟨i, _ | ⟨j, _ | ⟨k, _ | ⟨m, rest⟩⟩⟩⟩⟩⟩⟩⟩⟩⟩⟩⟩ <;>
    first
      | rfl
      | (simp only [List.length] at h; omega)

/-- A successful match constrains each of the first twelve characters to a
digit, `':'` or `'.'` — in particular none of them is a space. -/
theorem matchTimestamp_classes (l : List Char) (v : Nat × Nat × Nat × Nat)
    (hm : matchTimestamp l = some v) (i : Nat) (hi : i < 12) :
    ∃ c, l[i]? = some c ∧ (c.isDigit || c == ':' || c == '.') = true := by
  rcases l with _ | ⟨a, _ | ⟨b, _ | ⟨c, _ | ⟨d, _ | ⟨e, _ | ⟨f, _ | ⟨g, _ | ⟨h1, _ | ⟨i2, _ | ⟨j, _ | ⟨k, _ | ⟨m, rest⟩⟩⟩⟩⟩⟩⟩⟩⟩⟩⟩⟩
  all_goals try exact Option.noConfusion hm
  simp only [matchTimestamp.eq_def] at hm
  split at hm
  case isFalse => exact Option.noConfusion hm
  case isTrue hcond =>
    simp only [Bool.and_eq_true, beq_iff_eq] at hcond
    obtain ⟨⟨⟨⟨⟨⟨⟨⟨⟨⟨⟨ha, hb⟩, hc⟩, hd⟩, he⟩, hf⟩, hg⟩, hh⟩, hi2⟩, hj⟩, hk⟩, hm3⟩ := hcond
    interval_cases i <;> simp_all

theorem matchTimestamp_space (t r : List Char) (h : t.length < 12) :
    matchTimestamp (t ++ ' ' :: r) = none := by
  cases hm : matchTimestamp (t ++ ' ' :: r) with
  | none => rfl
  | some v =>
    obtain ⟨c, hc, hclass⟩ := matchTimestamp_classes _ _ hm t.length h
    rw [List.getElem?_append_right (Nat.le_refl _)] at hc
    simp at hc
    subst hc
    simp at hclass

/-- `takeBeforeSep l` is a prefix of `l`, and what it drops is either nothing
or a suffix beginning with the separator's first character, a space. -/
theorem takeBeforeSep_spec (l : List Char) :
    ∃ s, takeBeforeSep l ++ s = l ∧ (s = [] ∨ ∃ r, s = ' ' :: r) := by
  induction l with
  | nil => exact ⟨[], rfl, Or.inl rfl⟩
  | cons c cs ih =>
    by_cases hp : sepToken.isPrefixOf (c :: cs) = true
    · have ht : takeBeforeSep (c :: cs) = [] := by rw [takeBeforeSep, if_pos hp]
      refine ⟨c :: cs, by rw [ht, List.nil_append], Or.inr ⟨cs, ?_⟩⟩
      have hsep : sepToken = ' ' :: "--> ".data := rfl
      rw [hsep, List.isPrefixOf] at hp
      simp only [Bool.and_eq_true, beq_iff_eq] at hp
      rw [hp.1]
    · obtain ⟨s, hs, hcase⟩ := ih
      have ht : takeBeforeSep (c :: cs) = c :: takeBeforeSep cs := by
        rw [takeBeforeSep, if_neg (by simpa using hp)]
      exact ⟨s, by rw [ht, List.cons_append, hs], hcase⟩

/-- Taking the field before `" --> "` commutes with the anchored fixed-width
match: the separator cannot start inside the twelve matched characters. -/
theorem matchTimestamp_takeBeforeSep (l : List Char) :
    matchTimestamp (takeBeforeSep l) = matchTimestamp l := by
  obtain ⟨s, hs, hcase⟩ := takeBeforeSep_spec l
  rcases hcase with rfl | ⟨r, rfl⟩
  · rw [List.append_nil] at hs; rw [hs]
  · by_cases ht : 12 ≤ (takeBeforeSep l).length
    · conv_rhs => rw [← hs]
      rw [matchTimestamp_append _ _ ht]
    · push_neg at ht
      conv_rhs => rw [← hs]
      rw [matchTimestamp_space _ _ ht, matchTimestamp_none_of_short _ ht]

/-! ## The claims -/

/-- C1. End-to-end reconstruction for the §8 scenario: aggregating, sorting,
deduplicating and merging the cues of the two segment files of one video
yields exactly the artifact text `"Hello world.\n\nAnd goodbye."` — the
duplicate content is dropped and the two paragraphs are joined by a blank
line. -/
theorem end_to_end_scenario :
    process_video true [fileA, fileB] = some "Hello world.\n\nAnd goodbye." := by
  have hsort : sort_segments (aggregate_segments [fileA, fileB])
      = aggregate_segments [fileA, fileB] :=
    List.mergeSort_of_sorted (by decide)
  have h1 : process_video true [fileA, fileB]
      = some (process_segments [] (sort_segments (aggregate_segments [fileA, fileB]))) := rfl
  rw [h1, hsort]
  decide

/-- C2 (counterexample). A video whose only segment file parses to a single
cue with empty content produces zero non-empty paragraphs, yet
`process_video` still writes an (empty) artifact for it: the guard of line
174 only checks that some cue was parsed, not that a paragraph survived. -/
theorem artifact_written_without_paragraph :
    (process_video true [emptyContentFile]).isSome = true
      ∧ process_segments_list (sort_segments (aggregate_segments [emptyContentFile])) = []
      ∧ process_video true [emptyContentFile] = some "" := by
  have hsort : sort_segments (aggregate_segments [emptyContentFile])
      = aggregate_segments [emptyContentFile] :=
    List.mergeSort_of_sorted (by decide)
  have h1 : process_video true [emptyContentFile]
      = some (process_segments [] (sort_segments (aggregate_segments [emptyContentFile]))) := rfl
  refine ⟨by rw [h1]; rfl, by rw [hsort]; decide, by rw [h1, hsort]; decide⟩

/-- C2 (amended). An output artifact is written for a video exactly when its
directory exists, it has segment files, and at least one cue was parsed from
them — even when every parsed cue has empty content, in which case the
artifact holds the empty string. -/
theorem artifact_written_iff_cue_parsed (dirExists : Bool) (files : List String) :
    (process_video dirExists files).isSome = true ↔
      dirExists = true ∧ files ≠ [] ∧ aggregate_segments files ≠ [] := by
  cases dirExists
  · simp [process_video]
  · by_cases hf : files = []
    · simp [process_video, hf]
    · by_cases ha : aggregate_segments files = []
      · simp [process_video, List.isEmpty_iff, hf, ha]
      · simp [process_video, List.isEmpty_iff, hf, ha]

/-- C3. The time converter is pure and total: when the leading portion of the
`time_range` matches the fixed-width `HH:MM:SS.mmm` pattern it returns
`((H*3600)+(M*60)+S)*1000+ms`, and on every other string it returns `0`. -/
theorem start_time_ms_contract (seg : VTTSegment) :
    (∀ hh mm ss ms, matchTimestamp seg.time_range.data = some (hh, mm, ss, ms) →
        seg.start_time_ms = (hh * 3600 + mm * 60 + ss) * 1000 + ms)
    ∧ (matchTimestamp seg.time_range.data = none → seg.start_time_ms = 0) := by
  constructor
  · intro hh mm ss ms hm
    rw [VTTSegment.start_time_ms, matchTimestamp_takeBeforeSep, hm]
  · intro hm
    rw [VTTSegment.start_time_ms, matchTimestamp_takeBeforeSep, hm]

/-- C3 (witness): `"00:01:02.345"` parses to `62345` milliseconds and an
unparsable string yields `0`. -/
theorem start_time_ms_contract_witness :
    VTTSegment.start_time_ms ⟨"00:01:02.345 --> 00:00:00.000", "x", none⟩ = 62345
      ∧ VTTSegment.start_time_ms ⟨"garbage", "x", none⟩ = 0 :=
  ⟨(start_time_ms_contract ⟨"00:01:02.345 --> 00:00:00.000", "x", none⟩).1 0 1 2 345 (by decide),
   (start_time_ms_contract ⟨"garbage", "x", none⟩).2 (by decide)⟩

/-! ## Dedup facts -/

/-- The dedup set after the loop is exactly the consumed contents (newest
first) on top of the initial set. -/
theorem foldl_processed_content (segs : List VTTSegment) :
    ∀ st : MergeState, (List.foldl process_step st segs).processed_content
      = (consumed_contents st.processed_content segs).reverse ++ st.processed_content := by
  induction segs with
  | nil => intro st; simp [consumed_contents]
  | cons seg rest ih =>
    intro st
    by_cases h1 : pyStrip seg.content = ""
    · rw [List.foldl_cons]
      have hstep : process_step st seg = st := by rw [process_step, if_pos h1]
      rw [hstep, ih st, consumed_contents, if_pos h1]
    · by_cases h2 : st.processed_content.contains seg.content = true
      · rw [List.foldl_cons]
        have hstep : process_step st seg = st := by
          rw [process_step, if_neg h1, if_pos h2]
        rw [hstep, ih st, consumed_contents, if_neg h1, if_pos h2]
      · rw [List.foldl_cons]
        have hstep : (process_step st seg).processed_content
            = seg.content :: st.processed_content := by
          rw [process_step, if_neg h1, if_neg h2]
        have hcur : ∀ q : MergeState, q.processed_content = seg.content :: st.processed_content →
            (List.foldl process_step q rest).processed_content
              = (consumed_contents (seg.content :: st.processed_content) rest).reverse
                ++ (seg.content :: st.processed_content) := by
          intro q hq; rw [ih q, hq]
        rw [hcur _ hstep, consumed_contents, if_neg h1, if_neg (by simpa using h2)]
        simp

/-- A content already in the dedup set is never consumed again. -/
theorem consumed_count_zero (segs : List VTTSegment) :
    ∀ seen : List String, ∀ c ∈ seen, (consumed_contents seen segs).count c = 0 := by
  induction segs with
  | nil => intro seen c _; simp [consumed_contents]
  | cons seg rest ih =>
    intro seen c hc
    rw [consumed_contents]
    by_cases h1 : pyStrip seg.content = ""
    · rw [if_pos h1]; exact ih seen c hc
    · rw [if_neg h1]
      by_cases h2 : seen.contains seg.content = true
      · rw [if_pos h2]; exact ih seen c hc
      · rw [if_neg h2]
        have hne : c ≠ seg.content := by
          intro h; exact h2 (List.elem_iff.mpr (h ▸ hc))
        rw [List.count_cons_of_ne hne]
        exact ih (seg.content :: seen) c (List.mem_cons_of_mem _ hc)

/-- A non-empty content occurring in the cue sequence and not yet seen is
consumed exactly once, however often it occurs. -/
theorem consumed_count_one (segs : List VTTSegment) :
    ∀ seen : List String, ∀ c : String,
      (∀ s ∈ segs, pyStrip s.content = s.content) → c ∉ seen → c ≠ "" →
      c ∈ segs.map VTTSegment.content → (consumed_contents seen segs).count c = 1 := by
  induction segs with
  | nil => intro seen c _ _ _ hmem; simp at hmem
  | cons seg rest ih =>
    intro seen c hstrip hseen hne hmem
    have hstrip' : ∀ s ∈ rest, pyStrip s.content = s.content := by
      intro s hs; exact hstrip s (List.mem_cons_of_mem _ hs)
    rw [consumed_contents]
    by_cases h1 : pyStrip seg.content = ""
    · rw [if_pos h1]
      have hcne : c ≠ seg.content := by
        intro h
        apply hne
        rw [h, ← hstrip seg (List.mem_cons_self _ _), h1]
      have hmem' : c ∈ rest.map VTTSegment.content := by
        rcases List.mem_cons.mp hmem with h | h
        · exact absurd h hcne
        · exact h
      exact ih seen c hstrip' hseen hne hmem'
    · rw [if_neg h1]
      by_cases h2 : seen.contains seg.content = true
      · rw [if_pos h2]
        have hcne : c ≠ seg.content := by
          intro h; exact hseen (h ▸ List.elem_iff.mp h2)
        have hmem' : c ∈ rest.map VTTSegment.content := by
          rcases List.mem_cons.mp hmem with h | h
          · exact absurd h hcne
          · exact h
        exact ih seen c hstrip' hseen hne hmem'
      · rw [if_neg h2]
        by_cases hcs : c = seg.content
        · rw [hcs, List.count_cons_self,
            consumed_count_zero rest (seg.content :: seen) seg.content (List.mem_cons_self _ _)]
        · rw [List.count_cons_of_ne hcs]
          have hmem' : c ∈ rest.map VTTSegment.content := by
            rcases List.mem_cons.mp hmem with h | h
            · exact absurd h hcs
            · exact h
          exact ih (seg.content :: seen) c hstrip'
            (by intro h; rcases List.mem_cons.mp h with h | h; exact hcs h; exact hseen h)
            hne hmem'

/-- C4. Deduplication is idempotent on content and scoped to one job: a
(stripped, non-empty) content occurring in two or more cues is consumed by
the merge exactly once — its multiplicity in the job's final dedup set is one
— and, because line 195 builds the dedup set afresh, the result of
`process_segments` does not depend on the maker's prior dedup state. -/
theorem dedup_idempotent_and_job_scoped (segs : List VTTSegment)
    (hstrip : ∀ s ∈ segs, pyStrip s.content = s.content)
    (c : String) (hc : c ≠ "")
    (hcount : 2 ≤ (segs.map VTTSegment.content).count c) :
    (process_segments_state segs).processed_content.count c = 1
      ∧ ∀ prior : List String, process_segments prior segs = process_segments [] segs := by
  constructor
  · have hmem : c ∈ segs.map VTTSegment.content := by
      rw [← List.count_pos_iff]; omega
    rw [process_segments_state, foldl_processed_content]
    simp only [List.append_nil, List.count_reverse]
    exact consumed_count_one segs [] c hstrip (by simp) hc hmem
  · intro prior; rfl

/-- C4 (witness): the same content under two different time ranges ends up in
the job's dedup set with multiplicity one. -/
theorem dedup_idempotent_witness :
    (process_segments_state
        [⟨"00:00:00.000 --> 00:00:01.000", "Hello.", none⟩,
         ⟨"00:00:05.000 --> 00:00:06.000", "Hello.", none⟩]).processed_content.count "Hello." = 1 :=
  (dedup_idempotent_and_job_scoped _ (by decide) "Hello." (by decide) (by decide)).1

/-! ## Sort facts -/

theorem sort_key_trans : ∀ a b c : VTTSegment,
    decide (a.start_time_ms ≤ b.start_time_ms) →
    decide (b.start_time_ms ≤ c.start_time_ms) →
    decide (a.start_time_ms ≤ c.start_time_ms) = true := by
  intro a b c h1 h2
  simp only [decide_eq_true_eq] at h1 h2 ⊢
  omega

theorem sort_key_total : ∀ a b : VTTSegment,
    (decide (a.start_time_ms ≤ b.start_time_ms)
      || decide (b.start_time_ms ≤ a.start_time_ms)) = true := by
  intro a b
  simp only [Bool.or_eq_true, decide_eq_true_eq]
  omega

/-- C5. `sort_segments` permutes the cues into ascending `start_time_ms`
order, and it is stable: for every key value, the subsequence of cues with
that exact start time is unchanged, so ties keep their discovery order. -/
theorem sort_stable_ascending (segs : List VTTSegment) :
    List.Perm (sort_segments segs) segs
    ∧ (sort_segments segs).Pairwise (fun a b => a.start_time_ms ≤ b.start_time_ms)
    ∧ ∀ t : Nat,
        (sort_segments segs).filter (fun s => decide (s.start_time_ms = t))
          = segs.filter (fun s => decide (s.start_time_ms = t)) := by
  refine ⟨List.mergeSort_perm segs _, ?_, ?_⟩
  · have h := @List.sorted_mergeSort VTTSegment
      (fun a b : VTTSegment => decide (a.start_time_ms ≤ b.start_time_ms))
      sort_key_trans sort_key_total segs
    exact h.imp fun hab => by simpa using hab
  · intro t
    set p := fun s : VTTSegment => decide (s.start_time_ms = t) with hp
    have hmem : ∀ s ∈ segs.filter p, s.start_time_ms = t := by
      intro s hs
      have := List.of_mem_filter hs
      simpa [hp] using this
    have hpw : (segs.filter p).Pairwise
        (fun a b => decide (a.start_time_ms ≤ b.start_time_ms) = true) := by
      refine List.pairwise_of_forall_mem_list ?_
      intro a ha b hb
      simp [hmem a ha, hmem b hb]
    have hsub2 : (segs.filter p).Sublist (sort_segments segs) :=
      List.sublist_mergeSort sort_key_trans sort_key_total hpw (List.filter_sublist segs)
    have hsub3 : (segs.filter p).Sublist ((sort_segments segs).filter p) := by
      have h := hsub2.filter p
      have hself : (segs.filter p).filter p = segs.filter p :=
        List.filter_eq_self.mpr (by intro a ha; exact List.of_mem_filter ha)
      rwa [hself] at h
    have hlen : (segs.filter p).length = ((sort_segments segs).filter p).length :=
      (((List.mergeSort_perm segs _).filter p).length_eq).symm
    exact (hsub3.eq_of_length hlen).symm

/-- C6. Sentence closing: after a consumed cue updates the accumulator, a
last non-whitespace character `.`, `!` or `?` pushes the accumulator onto the
result list and resets it to empty, while `:` or `;` leaves the accumulator
open (only the separate new-sentence rule can have pushed anything). -/
theorem sentence_closing_rule (st : MergeState) (seg : VTTSegment)
    (h1 : pyStrip seg.content ≠ "") (h2 : st.processed_content.contains seg.content = false) :
    (last_non_ws (merge_content st.current_sentence seg.content).1 ∈ [some '.', some '!', some '?'] →
      (process_step st seg).current_sentence = ""
        ∧ (process_step st seg).result.getLast?
            = some (merge_content st.current_sentence seg.content).1)
    ∧ (last_non_ws (merge_content st.current_sentence seg.content).1 ∈ [some ':', some ';'] →
      (process_step st seg).current_sentence = (merge_content st.current_sentence seg.content).1
        ∧ (process_step st seg).result
            = st.result ++ (merge_content st.current_sentence seg.content).2.toList) := by
  have hstep : process_step st seg =
      { processed_content := seg.content :: st.processed_content
      , current_sentence := (close_sentence (merge_content st.current_sentence seg.content).1).1
      , result := (st.result ++ (merge_content st.current_sentence seg.content).2.toList)
          ++ (close_sentence (merge_content st.current_sentence seg.content).1).2.toList } := by
    rw [process_step, if_neg h1,
      if_neg (by intro hx; rw [hx] at h2; exact Bool.noConfusion h2)]
  constructor
  · intro hmem
    rw [List.mem_cons, List.mem_cons, List.mem_singleton] at hmem
    have hin : pyLastIn (merge_content st.current_sentence seg.content).1 ['.', '!', '?'] = true := by
      rcases hmem with h | h | h
      · rw [pyLastIn, h]; rfl
      · rw [pyLastIn, h]; rfl
      · rw [pyLastIn, h]; rfl
    have hclose : close_sentence (merge_content st.current_sentence seg.content).1
        = ("", some (merge_content st.current_sentence seg.content).1) := by
      rw [close_sentence, if_pos hin]
    rw [hstep, hclose]
    exact ⟨rfl, List.getLast?_concat _⟩
  · intro hmem
    rw [List.mem_cons, List.mem_singleton] at hmem
    have hin : pyLastIn (merge_content st.current_sentence seg.content).1 ['.', '!', '?'] = false := by
      rcases hmem with h | h
      · rw [pyLastIn, h]; rfl
      · rw [pyLastIn, h]; rfl
    have hclose : close_sentence (merge_content st.current_sentence seg.content).1
        = ((merge_content st.current_sentence seg.content).1, none) := by
      rw [close_sentence, hin]; rfl
    rw [hstep, hclose]
    exact ⟨rfl, by simp⟩

/-- C6 (witness): a cue ending in `.` closes the paragraph. -/
theorem sentence_closing_rule_witness :
    (process_step ⟨[], "", []⟩ ⟨"00:00:00.000 --> 00:00:01.000", "Hi.", none⟩).current_sentence = ""
      ∧ (process_step ⟨[], "", []⟩ ⟨"00:00:00.000 --> 00:00:01.000", "Hi.", none⟩).result.getLast?
          = some "Hi." :=
  (sentence_closing_rule _ _ (by decide) (by decide)).1 (by decide)

/-- C7. Boundary heuristic: with a non-empty accumulator, an incoming cue's
content starts a new sentence — the accumulator is pushed and replaced —
exactly when its first character is upper case, the accumulator's last
non-whitespace character is none of `. ! ? : ;`, and the content does not
begin with one of the fixed continuation words followed by a space; in every
other case it is appended as a continuation with a single joining space. -/
theorem boundary_heuristic (current_sentence content : String)
    (h1 : current_sentence ≠ "") (h2 : content ≠ "") :
    (merge_content current_sentence content = (content, some current_sentence) ↔
      (pyFirstIsUpper content = true
        ∧ pyLastIn current_sentence ['.', '!', '?', ':', ';'] = false
        ∧ ∀ w ∈ ["And", "But", "Or", "So", "Then", "However", "Therefore"],
            pyStartsWith content (w ++ " ") = false))
    ∧ (merge_content current_sentence content ≠ (content, some current_sentence) →
        merge_content current_sentence content = (current_sentence ++ " " ++ content, none)) := by
  by_cases hb : (pyFirstIsUpper content
      && !pyLastIn current_sentence ['.', '!', '?', ':', ';']) = true
  · by_cases hcont : is_continuation content = true
    · have hmc : merge_content current_sentence content
          = (current_sentence ++ " " ++ content, none) := by
        rw [merge_content, if_neg h1, if_pos hb, if_pos hcont]
      refine ⟨iff_of_false ?_ ?_, fun _ => hmc⟩
      · rw [hmc]
        intro h
        exact Option.noConfusion (congrArg Prod.snd h)
      · rintro ⟨-, -, hall⟩
        obtain ⟨w, hw, hsw⟩ := List.any_eq_true.mp hcont
        exact absurd hsw (by rw [hall w hw]; simp)
    · have hmc : merge_content current_sentence content
          = (content, some current_sentence) := by
        rw [merge_content, if_neg h1, if_pos hb, if_neg hcont]
      simp only [Bool.and_eq_true, Bool.not_eq_true'] at hb
      refine ⟨iff_of_true hmc ⟨hb.1, hb.2, ?_⟩, fun h => absurd hmc h⟩
      intro w hw
      by_contra hws
      exact hcont (List.any_eq_true.mpr ⟨w, hw, by simpa using hws⟩)
  · have hmc : merge_content current_sentence content
        = (current_sentence ++ " " ++ content, none) := by
      rw [merge_content, if_neg h1, if_neg hb]
    refine ⟨iff_of_false ?_ ?_, fun _ => hmc⟩
    · rw [hmc]
      intro h
      exact Option.noConfusion (congrArg Prod.snd h)
    · rintro ⟨hu, hl, -⟩
      rw [hu, hl] at hb
      exact hb rfl

/-- C7 (witness): the §8 continuation-override example — `"But then I left."`
starts upper case after an unterminated accumulator, yet merges into one
paragraph because `But` is a continuation word. -/
theorem boundary_heuristic_witness :
    merge_content "I went home" "But then I left."
      = ("I went home But then I left.", none) :=
  (boundary_heuristic _ _ (by decide) (by decide)).2 (by decide)

/-! ## Block-parser facts -/

theorem findArrowSplit_none_iff (lines : List String) :
    findArrowSplit lines = none ↔ ∀ l ∈ lines, pyContains l "-->" = false := by
  induction lines with
  | nil => simp [findArrowSplit]
  | cons l ls ih =>
    rw [findArrowSplit]
    by_cases ha : pyContains l "-->" = true
    · rw [if_pos ha]
      simp only [List.mem_cons]
      exact iff_of_false (by simp)
        (fun h => by rw [h l (Or.inl rfl)] at ha; exact Bool.noConfusion ha)
    · rw [if_neg ha]
      cases hf : findArrowSplit ls with
      | none =>
        simp only [List.mem_cons]
        constructor
        · intro _
          rintro x (rfl | hx)
          · simpa using ha
          · exact (ih.mp hf) x hx
        · intro _
          trivial
      | some v =>
        simp only [List.mem_cons]
        refine iff_of_false (by simp) ?_
        intro h
        have hn : findArrowSplit ls = none := ih.mpr (fun x hx => h x (Or.inr hx))
        rw [hn] at hf
        exact Option.noConfusion hf

theorem findArrowSplit_some_spec (lines : List String) :
    ∀ before t after, findArrowSplit lines = some (before, t, after) →
      (∀ l ∈ before, pyContains l "-->" = false)
        ∧ pyContains t "-->" = true ∧ lines = before ++ t :: after := by
  induction lines with
  | nil => intro b t a h; exact Option.noConfusion h
  | cons l ls ih =>
    intro b t a h
    rw [findArrowSplit] at h
    by_cases ha : pyContains l "-->" = true
    · rw [if_pos ha] at h
      obtain ⟨rfl, rfl, rfl⟩ : b = [] ∧ l = t ∧ ls = a := by
        injection h with h'
        injection h' with h1 h2
        injection h2 with h3 h4
        exact ⟨h1.symm, h3, h4⟩
      exact ⟨by simp, ha, rfl⟩
    · rw [if_neg ha] at h
      cases hf : findArrowSplit ls with
      | none => rw [hf] at h; exact Option.noConfusion h
      | some v =>
        obtain ⟨b', t', a'⟩ := v
        rw [hf] at h
        obtain ⟨rfl, rfl, rfl⟩ : l :: b' = b ∧ t' = t ∧ a' = a := by
          injection h with h'
          injection h' with h1 h2
          injection h2 with h3 h4
          exact ⟨h1, h3, h4⟩
        obtain ⟨hb, ht, hls⟩ := ih b' t' a' hf
        refine ⟨?_, ht, by rw [hls]; rfl⟩
        intro x hx
        rcases List.mem_cons.mp hx with rfl | hx'
        · simpa using ha
        · exact hb x hx'

/-- C8. Block-parser contract: a block yields no cue exactly when no line
contains `"-->"`; otherwise the first arrow line is the time range, an
all-digit line at index 0 before it is the `content_id`, the lines after it
joined by single spaces and trimmed are the content, and the cue is
constructed even when that content is empty. -/
theorem block_parser_contract (lines : List String) :
    (parse_vtt_block lines = none ↔ lines.all (fun l => !pyContains l "-->") = true)
    ∧ ∀ before time_range after, findArrowSplit lines = some (before, time_range, after) →
        ((∀ l ∈ before, pyContains l "-->" = false)
          ∧ pyContains time_range "-->" = true
          ∧ lines = before ++ time_range :: after
          ∧ parse_vtt_block lines
              = some (mkVTTSegment time_range (pyStrip (pyJoin " " after))
                  (match before with
                   | [] => none
                   | first :: _ => if pyIsDigitStr first then some first else none))) := by
  constructor
  · rw [parse_vtt_block]
    cases hf : findArrowSplit lines with
    | none =>
      refine iff_of_true rfl ?_
      rw [List.all_eq_true]
      intro x hx
      rw [(findArrowSplit_none_iff lines).mp hf x hx]
      rfl
    | some v =>
      obtain ⟨b, t, a⟩ := v
      refine iff_of_false (by simp) ?_
      rw [List.all_eq_true]
      intro h
      obtain ⟨-, ht, hl⟩ := findArrowSplit_some_spec lines b t a hf
      have hmem := h t (by rw [hl]; exact List.mem_append_right _ (List.mem_cons_self _ _))
      rw [ht] at hmem
      exact Bool.noConfusion hmem
  · intro b t a hf
    obtain ⟨hb, ht, hl⟩ := findArrowSplit_some_spec lines b t a hf
    exact ⟨hb, ht, hl, by rw [parse_vtt_block, hf]; try rfl⟩

/-- C8 (witness): a numeric first line becomes the `content_id`, and a block
with no line after the time range still constructs a cue, with empty content. -/
theorem block_parser_contract_witness :
    parse_vtt_block ["42", "00:00:00.000 --> 00:00:01.000"]
      = some ⟨"00:00:00.000 --> 00:00:01.000", "", some "42"⟩ := by
  have h := (block_parser_contract ["42", "00:00:00.000 --> 00:00:01.000"]).2
    ["42"] "00:00:00.000 --> 00:00:01.000" [] (by decide)
  exact h.2.2.2

/-- C9. Batch exit contract: the batch outcome is exit code 0 exactly when
there was at least one video and every video's job succeeded; a missing
directory, an empty file set, or zero parseable cues each make that one
video's job fail (`none`), and — the driver folding over every video
unconditionally — they never abort the rest of the batch. -/
theorem batch_exit_contract (videos : List (Bool × List String)) (fls : List String) :
    (process_all_videos videos = 0 ↔
      videos ≠ [] ∧ ∀ v ∈ videos, (process_video v.1 v.2).isSome = true)
    ∧ process_video false fls = none
    ∧ process_video true [] = none
    ∧ (aggregate_segments fls = [] → process_video true fls = none) := by
  refine ⟨?_, rfl, rfl, ?_⟩
  · rw [process_all_videos]
    by_cases hv : videos = []
    · subst hv; simp
    · rw [if_neg (by simpa [List.isEmpty_iff] using hv)]
      by_cases hc : videos.countP (fun v => (process_video v.1 v.2).isSome) = videos.length
      · rw [if_pos hc]
        exact iff_of_true rfl ⟨hv, fun v hv' => List.countP_eq_length.mp hc v hv'⟩
      · rw [if_neg hc]
        refine iff_of_false (by simp) ?_
        rintro ⟨-, hall⟩
        exact hc (List.countP_eq_length.mpr hall)
  · intro h
    cases fls with
    | nil => rfl
    | cons f fs =>
      rw [process_video]
      rw [h]
      rfl

/-- C9 (witness): the three failure modes fail concretely, and a batch
containing a failed video exits non-zero. -/
theorem batch_exit_contract_witness :
    process_video false [fileA] = none
      ∧ process_video true [] = none
      ∧ process_video true [noCueFile] = none
      ∧ process_all_videos [(false, [fileA])] ≠ 0 := by
  refine ⟨(batch_exit_contract [] [fileA]).2.1, (batch_exit_contract [] [fileA]).2.2.1,
    (batch_exit_contract [] [noCueFile]).2.2.2 (by decide), ?_⟩
  intro h0
  obtain ⟨-, hall⟩ := (batch_exit_contract [(false, [fileA])] []).1.mp h0
  have h1 := hall (false, [fileA]) (List.mem_singleton.mpr rfl)
  rw [(batch_exit_contract [] [fileA]).2.1] at h1
  exact Bool.noConfusion h1

/-! ## Non-empty-paragraph facts -/

theorem pyStrip_ne_empty (s : String) (h : pyStrip s ≠ "") : s ≠ "" := by
  intro h0
  subst h0
  exact h rfl

theorem str_append_ne_empty (a b : String) (h : b ≠ "") : a ++ b ≠ "" := by
  intro h0
  apply h
  have hd : a.data ++ b.data = [] := congrArg String.data h0
  have hb : b.data = [] := (List.append_eq_nil.mp hd).2
  cases b
  simp_all

/-- The new-sentence rule only ever pushes the (non-empty) accumulator. -/
theorem merge_content_pushed (cur c x : String) (h : (merge_content cur c).2 = some x) :
    x = cur ∧ cur ≠ "" := by
  rw [merge_content] at h
  by_cases h1 : cur = ""
  · rw [if_pos h1] at h
    exact Option.noConfusion h
  · rw [if_neg h1] at h
    by_cases h2 : (pyFirstIsUpper c && !pyLastIn cur ['.', '!', '?', ':', ';']) = true
    · rw [if_pos h2] at h
      by_cases h3 : is_continuation c = true
      · rw [if_pos h3] at h
        exact Option.noConfusion h
      · rw [if_neg h3] at h
        exact ⟨(Option.some.inj h).symm, h1⟩
    · rw [if_neg h2] at h
      exact Option.noConfusion h

/-- Folding a non-empty content into the accumulator keeps it non-empty. -/
theorem merge_content_fst_ne (cur c : String) (hc : c ≠ "") :
    (merge_content cur c).1 ≠ "" := by
  rw [merge_content]
  by_cases h1 : cur = ""
  · rw [if_pos h1]; exact hc
  · rw [if_neg h1]
    by_cases h2 : (pyFirstIsUpper c && !pyLastIn cur ['.', '!', '?', ':', ';']) = true
    · rw [if_pos h2]
      by_cases h3 : is_continuation c = true
      · rw [if_pos h3]; exact str_append_ne_empty _ _ hc
      · rw [if_neg h3]; exact hc
    · rw [if_neg h2]; exact str_append_ne_empty _ _ hc

/-- The closing rule only ever pushes the accumulator itself. -/
theorem close_sentence_pushed (cur x : String) (h : (close_sentence cur).2 = some x) :
    x = cur := by
  rw [close_sentence] at h
  by_cases h1 : pyLastIn cur ['.', '!', '?'] = true
  · rw [if_pos h1] at h
    exact (Option.some.inj h).symm
  · rw [if_neg h1] at h
    exact Option.noConfusion h

theorem step_result_nonempty (st : MergeState) (seg : VTTSegment)
    (hres : ∀ q ∈ st.result, q ≠ "") :
    ∀ q ∈ (process_step st seg).result, q ≠ "" := by
  rw [process_step]
  by_cases h1 : pyStrip seg.content = ""
  · rw [if_pos h1]; exact hres
  · rw [if_neg h1]
    by_cases h2 : st.processed_content.contains seg.content = true
    · rw [if_pos h2]; exact hres
    · rw [if_neg h2]
      intro q hq
      simp only [List.mem_append] at hq
      rcases hq with (hq | hq) | hq
      · exact hres q hq
      · rw [Option.mem_toList, Option.mem_def] at hq
        obtain ⟨rfl, hne⟩ := merge_content_pushed _ _ _ hq
        exact hne
      · rw [Option.mem_toList, Option.mem_def] at hq
        rw [close_sentence_pushed _ _ hq]
        exact merge_content_fst_ne _ _ (pyStrip_ne_empty _ h1)

theorem foldl_result_nonempty (segs : List VTTSegment) :
    ∀ st : MergeState, (∀ q ∈ st.result, q ≠ "") →
      ∀ q ∈ (List.foldl process_step st segs).result, q ≠ "" := by
  induction segs with
  | nil => intro st h; simpa using h
  | cons seg rest ih =>
    intro st h
    rw [List.foldl_cons]
    exact ih (process_step st seg) (step_result_nonempty st seg h)

/-- C10. Every paragraph the reconstructor emits is a non-empty string: cues
whose stripped content is empty never touch the accumulator, and the
accumulator is only pushed when non-empty. -/
theorem paragraphs_nonempty (segs : List VTTSegment) (p : String)
    (hp : p ∈ process_segments_list segs) : p ≠ "" := by
  have hres := foldl_result_nonempty segs ⟨[], "", []⟩ (by simp)
  simp only [process_segments_list] at hp
  by_cases hcur : (process_segments_state segs).current_sentence = ""
  · rw [if_pos hcur] at hp
    exact hres p hp
  · rw [if_neg hcur] at hp
    rcases List.mem_append.mp hp with hq | hq
    · exact hres p hq
    · rw [List.mem_singleton.mp hq]
      exact hcur

/-- C10 (witness): the single paragraph of a one-cue job is non-empty. -/
theorem paragraphs_nonempty_witness : "Hi." ≠ "" :=
  paragraphs_nonempty [⟨"00:00:00.000 --> 00:00:01.000", "Hi.", none⟩] "Hi." (by decide)
